import Mathlib

/-!
Verification of the pathlibfs path/URI core (src/pathlibfs/path.py).

Paths are modelled as lists of characters (`Str`), and the Python string
primitives used by the source (`lstrip`, `rstrip`, `rsplit(sep, 1)`,
`split(sep)`, negative-index slicing) are embedded with Python semantics.
`os.path.normpath` (POSIX flavour) is embedded from the CPython source,
since the local branch of the path setter delegates to it.
-/

namespace Pathlibfs

/-- Strings are modelled as lists of characters. -/
abbrev Str := List Char

/-- Coerce a Lean string literal to the `Str` model. -/
def S (s : String) : Str := s.data

/-- Python `s.lstrip(c)` for a one-character strip set: drop every leading `c`. -/
def pyLstrip (c : Char) (s : Str) : Str := s.dropWhile (fun x => x = c)

/-- Python `s.rstrip(c)` for a one-character strip set: drop every trailing `c`. -/
def pyRstrip (c : Char) (s : Str) : Str := (s.reverse.dropWhile (fun x => x = c)).reverse

/-- Python `s.rsplit(c, 1)`: split at the last occurrence of `c`.
Result `(some before, after)` models the two-element list `[before, after]`;
`(none, s)` models the one-element list `[s]` (no occurrence). -/
def rsplitOnce (c : Char) : Str → Option Str × Str
  | [] => (none, [])
  | a :: t =>
    match rsplitOnce c t with
    | (some bef, aft) => (some (a :: bef), aft)
    | (none, aft) => if a = c then (some [], aft) else (none, a :: aft)

/-- Python `s[: -k]`: the empty string when `k = 0` (CPython slice `[:0]`),
otherwise everything but the last `k` characters. -/
def pySliceNeg (s : Str) (k : Nat) : Str :=
  if k = 0 then [] else s.take (s.length - k)

/-- Prepend a character to the first piece of a split result. -/
def consHead (a : Char) : List Str → List Str
  | [] => [[a]]
  | h :: r => (a :: h) :: r

/-- Python `s.split(c)`: split on every occurrence of `c`, preserving empty
pieces; the result is never the empty list. -/
def splitOnChar (c : Char) : Str → List Str
  | [] => [[]]
  | a :: t => if a = c then [] :: splitOnChar c t else consHead a (splitOnChar c t)

/-- Python `c.join(pieces)` for a one-character separator. -/
def joinSep (c : Char) : List Str → Str
  | [] => []
  | [x] => x
  | x :: y :: r => x ++ c :: joinSep c (y :: r)

/-- One step of the component loop of CPython `posixpath.normpath`:
skip empty and `.` components, append ordinary components, and let `..`
pop the previous component unless it must be kept. -/
def npStep (initSlashes : Nat) (acc : List Str) (comp : Str) : List Str :=
  if comp = [] ∨ comp = S "." then acc
  else if comp ≠ S ".." ∨ (initSlashes = 0 ∧ acc = []) ∨ acc.getLast? = some (S "..") then
    acc ++ [comp]
  else if acc ≠ [] then acc.dropLast
  else acc

/-- CPython `posixpath.normpath`: collapse `.`, `..` and redundant separators;
one or two leading slashes are preserved, three or more collapse to one;
the empty path normalizes to `.`. -/
def normpath (s : Str) : Str :=
  if s = [] then S "."
  else
    let initSlashes : Nat :=
      if (S "//").isPrefixOf s ∧ ¬ (S "///").isPrefixOf s then 2
      else if (S "/").isPrefixOf s then 1
      else 0
    let comps := (splitOnChar '/' s).foldl (npStep initSlashes) []
    let out := List.replicate initSlashes '/' ++ joinSep '/' comps
    if out = [] then S "." else out

/-! ## The PathValue data model

`Path.__init__`/`Path._init` resolve a urlpath to a filesystem, a protocol,
a chain prefix and a raw path.  The separator is `/` for every backend the
claims involve (`fsspec.AbstractFileSystem.sep`), so it is fixed here. -/

/-- The state of a `pathlibfs.Path` instance relevant to the pure path
algebra: resolved protocol, chain prefix (text before the last `::` of the
original urlpath), and the raw backend path `_path`. -/
structure PathValue where
  protocol : Str
  chain : Str
  path : Str
  deriving DecidableEq, Repr

/-- `Path.islocal`: the protocol is the local filesystem `file`. -/
def islocal (p : PathValue) : Prop := p.protocol = S "file"

instance (p : PathValue) : Decidable (islocal p) :=
  inferInstanceAs (Decidable (p.protocol = S "file"))

/-- Protocols whose path setter strips leading separators (`path.py`,
`Path.path` setter): `s3`, `s3a`, `gs`, `gcs`. -/
def stripProtocols : List Str := [S "s3", S "s3a", S "gs", S "gcs"]

/-- The `Path.path` setter: normalize with `os.path.normpath` for the local
protocol, strip leading separators (`p.lstrip(self.sep)`) for
`s3`/`s3a`/`gs`/`gcs`, otherwise store the path unchanged. -/
def setPath (protocol : Str) (p : Str) : Str :=
  if protocol = S "file" then normpath p
  else if protocol ∈ stripProtocols then pyLstrip '/' p
  else p

/-- `Path.clone`: copy the instance, then assign the new path through the
`Path.path` setter.  Protocol and chain are carried over unchanged. -/
def clone (p : PathValue) (newPath : Str) : PathValue :=
  { p with path := setPath p.protocol newPath }

/-- Well-formedness: the stored raw path is a fixed point of the path
setter.  Every `PathValue` the program builds has this property, because
`_init` and `clone` always store paths through the setter. -/
def wf (p : PathValue) : Prop := p.path = setPath p.protocol p.path

instance (p : PathValue) : Decidable (wf p) :=
  inferInstanceAs (Decidable (p.path = setPath p.protocol p.path))

/-- Split a string at every occurrence of the two-character token `://`
(Python `spath.rsplit("://")` produces the same pieces on the inputs the
parser sees; the last piece is what `_init` keeps for the local protocol). -/
def splitCSS : Str → List Str
  | ':' :: '/' :: '/' :: t => [] :: splitCSS t
  | a :: t => consHead a (splitCSS t)
  | [] => [[]]

/-- Python `spath.rsplit("::", 1)`: split at the last occurrence of `::`.
`(some before, after)` models `[before, after]`; `(none, s)` models `[s]`. -/
def rsplitCC : Str → Option Str × Str
  | [] => (none, [])
  | a :: t =>
    match rsplitCC t with
    | (some bef, aft) => (some (a :: bef), aft)
    | (none, aft) =>
      if a = ':' ∧ t.head? = some ':' then (some [], t.tail) else (none, a :: aft)

/-- Drop a literal prefix if present, otherwise return the string unchanged. -/
def dropPrefixStr (pre s : Str) : Str :=
  if pre.isPrefixOf s then s.drop pre.length else s

/-- Modelled from the spec: the external backend-resolution service
(fsspec `url_to_fs` / `AbstractFileSystem._strip_protocol`, §4.1 step 4 and
§6), which is not part of this repository.  For a non-local backend the
initial relative path is the urlpath with its leading literal
`<protocol>://` removed and trailing separators stripped; the bucket stays
in the path (the repository's own tests rely on this:
`tmp.parts[0] == "pathlibfs"` for `gs://pathlibfs/...`). -/
def stripProtoPrefix (proto final : Str) : Str :=
  pyRstrip '/' (dropPrefixStr (proto ++ S "://") final)

/-- `Path._init` on a urlpath string: split off the chain prefix at the last
`::`; take the protocol from the scheme of the final segment (the local
filesystem when there is no scheme — backend resolution itself is modelled,
see `stripProtoPrefix`); for the local protocol recompute the path as
`spath.rsplit("://")[-1]` (source line 80); finally store the path through
the `Path.path` setter. -/
def mkPath (spath : Str) : PathValue :=
  let chainFinal := rsplitCC spath
  let final := match chainFinal.1 with
    | some _ => chainFinal.2
    | none => spath
  let chain := match chainFinal.1 with
    | some bef => bef
    | none => []
  let pieces := splitCSS final
  let proto := if 2 ≤ pieces.length then pieces.headD [] else S "file"
  let rawPath :=
    if proto = S "file" then (splitCSS spath).getLastD []
    else stripProtoPrefix proto final
  { protocol := proto, chain := chain, path := setPath proto rawPath }

/-- `Path.resolve` for the local protocol constructs `Path(resolved)` where
`resolved = pathlib.Path(self.path).resolve(strict)` is the canonical
symlink-free absolute form supplied by the operating system; the oracle `R`
stands for that OS resolution, and the constructed value stores `R path`
through the setter (`normpath`).  Non-local paths resolve to themselves. -/
def resolve (R : Str → Str) (p : PathValue) : PathValue :=
  if islocal p then { protocol := S "file", chain := [], path := normpath (R p.path) }
  else p

/-- `Path.__eq__` between two Path instances: when both sides are local,
resolve each and compare the resolved raw paths; otherwise compare protocol
and raw path.  The chain prefix is never consulted. -/
def peqB (R : Str → Str) (a b : PathValue) : Bool :=
  if islocal a ∧ islocal b then decide ((resolve R a).path = (resolve R b).path)
  else decide (a.protocol = b.protocol ∧ a.path = b.path)

/-- A Python value appearing on the right of `==`: either a Path instance or
any non-Path value. -/
inductive PyVal where
  | pth (p : PathValue)
  | nonPath
  deriving DecidableEq

/-- `Path.__eq__`: raises `ValueError("other must be Path")` when the right
operand is not a Path, otherwise compares as `peqB`. -/
def pathEq (R : Str → Str) (a : PathValue) : PyVal → Except Str Bool
  | .pth b => .ok (peqB R a b)
  | .nonPath => .error (S "other must be Path")

/-! ## Path algebra

Each operation branches on `protocol == "file"`.  The local branch of the
source delegates to `pathlib.PurePath`; those delegates are modelled below
(POSIX flavour, from the CPython `pathlib` source) and are faithful on the
normpath-canonical paths that `_path` holds for the local protocol. -/

/-- Model of `pathlib.PurePath(s).name` (POSIX), faithful on
normpath-canonical paths: the part after the last separator; `.` (the empty
canonical path) and all-slash roots have no name. -/
def localName (s : Str) : Str :=
  if s = S "." then [] else (rsplitOnce '/' s).2

/-- Model of `pathlib.PurePath(s).suffix` (POSIX): the last dot group of the
name, empty when the last dot is missing, leading or trailing. -/
def localSuffix (s : Str) : Str :=
  match rsplitOnce '.' (localName s) with
  | (some bef, aft) => if bef ≠ [] ∧ aft ≠ [] then '.' :: aft else []
  | (none, _) => []

/-- Model of `pathlib.PurePath(s).stem` (POSIX): the name minus the suffix. -/
def localStem (s : Str) : Str :=
  match rsplitOnce '.' (localName s) with
  | (some bef, aft) => if bef ≠ [] ∧ aft ≠ [] then bef else localName s
  | (none, _) => localName s

/-- Model of `pathlib.PurePath(s).with_name(n)` (POSIX) on canonical paths:
raises when the path has no name or when the candidate name is empty,
contains a separator, or collapses (`.`); otherwise replaces the final
component. -/
def localWithName (s n : Str) : Except Str Str :=
  if localName s = [] then .error (s ++ S " has an empty name")
  else if n = [] ∨ '/' ∈ n ∨ n = S "." then .error (S "Invalid name")
  else .ok (s.take (s.length - (localName s).length) ++ n)

/-- Model of `pathlib.PurePath(s).with_suffix(sfx)` (POSIX) on canonical
paths: validates the suffix (no separator; empty or dot-initial, and not
exactly `.`), requires a name, then replaces the current suffix (or appends
when there is none). -/
def localWithSuffix (s sfx : Str) : Except Str Str :=
  if '/' ∈ sfx then .error (S "Invalid suffix")
  else if (sfx ≠ [] ∧ sfx.head? ≠ some '.') ∨ sfx = S "." then .error (S "Invalid suffix")
  else if localName s = [] then .error (s ++ S " has an empty name")
  else
    .ok (s.take (s.length - (localName s).length) ++
      (if localSuffix s = [] then localName s ++ sfx
       else pySliceNeg (localName s) (localSuffix s).length ++ sfx))

/-- Model of `pathlib.PurePath(s).parts` (POSIX) on canonical paths: the
root (one or two slashes) followed by the non-empty, non-`.` components. -/
def localParts (s : Str) : List Str :=
  let comps := (splitOnChar '/' s).filter (fun x => x ≠ [] ∧ x ≠ S ".")
  if (S "//").isPrefixOf s ∧ ¬ (S "///").isPrefixOf s then S "//" :: comps
  else if (S "/").isPrefixOf s then S "/" :: comps
  else comps

/-- `Path.parts`: delegate to pathlib for local paths, otherwise
`tuple(self.path.split(self.sep))` — empty segments are preserved. -/
def parts (p : PathValue) : List Str :=
  if islocal p then localParts p.path else splitOnChar '/' p.path

/-- `Path.name`: pathlib name for local paths, otherwise
`self._path.rsplit(self.sep, 1)[-1]`. -/
def name (p : PathValue) : Str :=
  if islocal p then localName p.path else (rsplitOnce '/' p.path).2

/-- `Path.suffix`: pathlib suffix for local paths; otherwise split the name
at its last dot: one piece means no suffix, two pieces give `"." + last`. -/
def suffix (p : PathValue) : Str :=
  if islocal p then localSuffix p.path
  else
    match rsplitOnce '.' (name p) with
    | (some _, aft) => '.' :: aft
    | (none, _) => []

/-- `Path.stem`: pathlib stem for local paths, otherwise
`name[: -len(suffix)]` with Python slice semantics. -/
def stem (p : PathValue) : Str :=
  if islocal p then localStem p.path
  else pySliceNeg (name p) (suffix p).length

/-- `Path.with_name`: pathlib delegate for local paths; otherwise raise on
an empty name and replace it by string surgery
(`self._path[: -len(self.name)] + name`), storing through `clone`. -/
def with_name (p : PathValue) (n : Str) : Except Str PathValue :=
  if islocal p then (localWithName p.path n).map (clone p)
  else if name p = [] then .error (p.path ++ S " has an empty name")
  else .ok (clone p (pySliceNeg p.path (name p).length ++ n))

/-- `Path.with_suffix`: pathlib delegate for local paths; otherwise replace
the suffix by string surgery (`self._path[: -len(self.suffix)] + suffix`),
storing through `clone`.  The remote branch performs no validation. -/
def with_suffix (p : PathValue) (sfx : Str) : Except Str PathValue :=
  if islocal p then (localWithSuffix p.path sfx).map (clone p)
  else .ok (clone p (pySliceNeg p.path (suffix p).length ++ sfx))

/-- `Path.joinpath`: the CPython `os.path.join`-style left fold — a segment
starting with the separator replaces the accumulated path; otherwise it is
appended, inserting the separator unless the accumulator is empty or already
ends with it.  The result is stored through `clone`. -/
def joinpath (p : PathValue) (segs : List Str) : PathValue :=
  clone p (segs.foldl
    (fun acc b =>
      if (S "/").isPrefixOf b then b
      else if acc = [] ∨ acc.getLast? = some '/' then acc ++ b
      else acc ++ '/' :: b)
    p.path)

/-- `Path.__truediv__`: `self.joinpath(key)`. -/
def truediv (p : PathValue) (k : Str) : PathValue := joinpath p [k]

/-- `Path.parent`: strip trailing separators; an empty remainder means the
path is a root and is its own parent; otherwise split at the last separator
with the local/remote special cases of the source. -/
def parent (p : PathValue) : PathValue :=
  let norm := pyRstrip '/' p.path
  if norm = [] then p
  else
    match rsplitOnce '/' norm with
    | (none, _) => if islocal p then clone p [] else p
    | (some bef, _) =>
      if islocal p then
        if bef = [] then clone p (S "/") else clone p bef
      else clone p bef

/-- Iterated `parent`. -/
def iterParent : Nat → PathValue → PathValue
  | 0, p => p
  | n + 1, p => iterParent n (parent p)

/-- Termination measure for `parents`: twice the path length, plus one
unless the path is already the local empty marker `.`. -/
def parentMeasure (p : PathValue) : Nat :=
  2 * p.path.length + (if p.path = S "." then 0 else 1)

/-- Fuelled recursion of `Path.parents`:
`[] if self == self.parent else [self.parent] + self.parent.parents`. -/
def parentsF (R : Str → Str) : Nat → PathValue → List PathValue
  | 0, _ => []
  | n + 1, p => if peqB R p (parent p) then [] else parent p :: parentsF R n (parent p)

/-- `Path.parents`: the fuelled recursion started with enough fuel
(`parentMeasure` strictly decreases along non-stabilized parent steps, see
`parentMeasure_lt_of_ne`). -/
def parents (R : Str → Str) (p : PathValue) : List PathValue :=
  parentsF R (parentMeasure p) p

/-! ## Cross-protocol operation dispatch

`copy`, `move`, `put` and `get` are modelled as functions that produce the
ordered list of backend primitive invocations together with the operation's
outcome.  Backend primitives may fail; an oracle decides each invocation's
result.  The `with tempfile.TemporaryDirectory()` block of the
remote-to-remote branches is embedded with Python `with`-statement
semantics: the directory is acquired before the body and released
(recursively deleted, `acquireTemp`/`releaseTemp` events) on every exit,
normal or exceptional, without suppressing the body's exception. -/

/-- A backend primitive invocation: the issuing filesystem's protocol and
the path arguments, plus the lifecycle events of the staging directory. -/
inductive FsOp where
  | copy (proto src dst : Str)
  | mv (proto src dst : Str)
  | put (proto lpath rpath : Str)
  | get (proto rpath lpath : Str)
  | rm (proto path : Str)
  | acquireTemp
  | releaseTemp
  deriving DecidableEq, Repr

/-- The two `PathlibfsException` validation failures of `put`/`get`:
"self must be a remote filesystem" and "target must be a local filesystem". -/
inductive PGError where
  | mustBeRemote
  | mustBeLocalTarget
  deriving DecidableEq, Repr

/-- A backend-layer failure, abstract apart from identity. -/
abbrev BackendErr := Str

/-- A failure escaping a transfer operation: a `put`/`get` protocol-class
validation error, or a propagated backend failure. -/
inductive TrErr where
  | validation (e : PGError)
  | backend (e : BackendErr)
  deriving DecidableEq, Repr

instance exceptDecEq {e a : Type} [DecidableEq e] [DecidableEq a] :
    DecidableEq (Except e a) := fun x y =>
  match x, y with
  | .ok u, .ok v =>
    if h : u = v then isTrue (by rw [h])
    else isFalse (by intro hh; exact h (Except.ok.inj hh))
  | .error u, .error v =>
    if h : u = v then isTrue (by rw [h])
    else isFalse (by intro hh; exact h (Except.error.inj hh))
  | .ok _, .error _ => isFalse (by intro hh; exact Except.noConfusion hh)
  | .error _, .ok _ => isFalse (by intro hh; exact Except.noConfusion hh)

/-- `Path.put(target)`: raise unless `self` is remote, raise unless the
target is local, otherwise delegate to
`self._fs.put(target.path, self.path)`. -/
def put (self target : PathValue) : Except PGError FsOp :=
  if islocal self then .error .mustBeRemote
  else if ¬ islocal target then .error .mustBeLocalTarget
  else .ok (.put self.protocol target.path self.path)

/-- `Path.get(target)`: raise unless `self` is remote, raise unless the
target is local, otherwise delegate to
`self._fs.get(self.path, target.path)`. -/
def get (self target : PathValue) : Except PGError FsOp :=
  if islocal self then .error .mustBeRemote
  else if ¬ islocal target then .error .mustBeLocalTarget
  else .ok (.get self.protocol self.path target.path)

/-- `Path(tdir)` for the temporary staging directory name handed to
`self.get`/`dst.put`: a plain local path, stored through the setter. -/
def localTemp (tmp : Str) : PathValue :=
  { protocol := S "file", chain := [], path := normpath tmp }

/-- `Path.copy(dst)`: same protocol → one native `fs.copy`; local self →
`dst.put(self)`; local dst → `self.get(dst)`; otherwise download into a
scoped temporary directory and upload it, the `with` block releasing the
directory on every exit path. -/
def copyRun (self dst : PathValue) (tmp : Str) (ora : FsOp → Except BackendErr Unit) :
    List FsOp × Except TrErr Unit :=
  if self.protocol = dst.protocol then
    let op := FsOp.copy self.protocol self.path dst.path
    ([op], (ora op).mapError .backend)
  else if islocal self ∧ ¬ islocal dst then
    match put dst self with
    | .error e => ([], .error (.validation e))
    | .ok op => ([op], (ora op).mapError .backend)
  else if ¬ islocal self ∧ islocal dst then
    match get self dst with
    | .error e => ([], .error (.validation e))
    | .ok op => ([op], (ora op).mapError .backend)
  else
    match get self (localTemp tmp) with
    | .error e => ([.acquireTemp, .releaseTemp], .error (.validation e))
    | .ok gop =>
      match ora gop with
      | .error e => ([.acquireTemp, gop, .releaseTemp], .error (.backend e))
      | .ok _ =>
        match put dst (localTemp tmp) with
        | .error e => ([.acquireTemp, gop, .releaseTemp], .error (.validation e))
        | .ok pop => ([.acquireTemp, gop, pop, .releaseTemp], (ora pop).mapError .backend)

/-- `Path.move(dst)`: same protocol → one native `fs.mv`; the cross-protocol
branches perform the corresponding copy transfer and then `self.rm(...)`,
the staging branch removing the source only after the `with` block exits
normally. -/
def moveRun (self dst : PathValue) (tmp : Str) (ora : FsOp → Except BackendErr Unit) :
    List FsOp × Except TrErr Unit :=
  if self.protocol = dst.protocol then
    let op := FsOp.mv self.protocol self.path dst.path
    ([op], (ora op).mapError .backend)
  else if islocal self ∧ ¬ islocal dst then
    match put dst self with
    | .error e => ([], .error (.validation e))
    | .ok op =>
      match ora op with
      | .error e => ([op], .error (.backend e))
      | .ok _ => ([op, FsOp.rm self.protocol self.path],
          (ora (FsOp.rm self.protocol self.path)).mapError .backend)
  else if ¬ islocal self ∧ islocal dst then
    match get self dst with
    | .error e => ([], .error (.validation e))
    | .ok op =>
      match ora op with
      | .error e => ([op], .error (.backend e))
      | .ok _ => ([op, FsOp.rm self.protocol self.path],
          (ora (FsOp.rm self.protocol self.path)).mapError .backend)
  else
    match get self (localTemp tmp) with
    | .error e => ([.acquireTemp, .releaseTemp], .error (.validation e))
    | .ok gop =>
      match ora gop with
      | .error e => ([.acquireTemp, gop, .releaseTemp], .error (.backend e))
      | .ok _ =>
        match put dst (localTemp tmp) with
        | .error e => ([.acquireTemp, gop, .releaseTemp], .error (.validation e))
        | .ok pop =>
          match ora pop with
          | .error e => ([.acquireTemp, gop, pop, .releaseTemp], .error (.backend e))
          | .ok _ => ([.acquireTemp, gop, pop, .releaseTemp, FsOp.rm self.protocol self.path],
              (ora (FsOp.rm self.protocol self.path)).mapError .backend)

/-- The copy dispatch table as the specification states it (claim C1):
equal protocols use one native same-backend copy; a local source uploads via
the destination's `put`; a local destination downloads via the source's
`get`; two distinct remote protocols stage through a temporary local
directory (download, then upload, with scoped release).  In the two middle
branches the other side is automatically non-local, because distinct
protocols cannot both be `file`. -/
def copySpec (self dst : PathValue) (tmp : Str) (ora : FsOp → Except BackendErr Unit) :
    List FsOp × Except TrErr Unit :=
  if self.protocol = dst.protocol then
    let op := FsOp.copy self.protocol self.path dst.path
    ([op], (ora op).mapError .backend)
  else if islocal self then
    let op := FsOp.put dst.protocol self.path dst.path
    ([op], (ora op).mapError .backend)
  else if islocal dst then
    let op := FsOp.get self.protocol self.path dst.path
    ([op], (ora op).mapError .backend)
  else
    match ora (FsOp.get self.protocol self.path (localTemp tmp).path) with
    | .error e =>
      ([.acquireTemp, .get self.protocol self.path (localTemp tmp).path, .releaseTemp],
        .error (.backend e))
    | .ok _ =>
      ([.acquireTemp, .get self.protocol self.path (localTemp tmp).path,
        .put dst.protocol (localTemp tmp).path dst.path, .releaseTemp],
        (ora (.put dst.protocol (localTemp tmp).path dst.path)).mapError .backend)

/-! ## String lemmas -/

theorem rsplitOnce_spec (c : Char) (s : Str) :
    (∀ bef aft, rsplitOnce c s = (some bef, aft) → s = bef ++ c :: aft ∧ c ∉ aft) ∧
    (∀ aft, rsplitOnce c s = (none, aft) → aft = s ∧ c ∉ s) := by
  induction s with
  | nil =>
    constructor
    · intro bef aft h; simp [rsplitOnce] at h
    · intro aft h
      simp only [rsplitOnce, Prod.mk.injEq] at h
      simp [← h.2]
  | cons a t ih =>
    obtain ⟨ihs, ihn⟩ := ih
    constructor
    · intro bef aft h
      simp only [rsplitOnce] at h
      rcases ht : rsplitOnce c t with ⟨ob, af⟩
      rw [ht] at h
      cases ob with
      | some b =>
        simp only [Prod.mk.injEq, Option.some.injEq] at h
        obtain ⟨rfl, rfl⟩ := h
        obtain ⟨he, hm⟩ := ihs b af ht
        exact ⟨by simp [he], hm⟩
      | none =>
        by_cases hac : a = c
        · simp only [hac, if_pos, Prod.mk.injEq, Option.some.injEq, and_true, true_and] at h
          obtain ⟨rfl, rfl⟩ := h
          obtain ⟨haf, hc⟩ := ihn af ht
          exact ⟨by simp [hac, haf], haf ▸ hc⟩
        · simp [hac] at h
    · intro aft h
      simp only [rsplitOnce] at h
      rcases ht : rsplitOnce c t with ⟨ob, af⟩
      rw [ht] at h
      cases ob with
      | some b => simp at h
      | none =>
        by_cases hac : a = c
        · simp [hac] at h
        · simp only [if_neg hac, Prod.mk.injEq] at h
          obtain ⟨haf, hc⟩ := ihn af ht
          refine ⟨by simp [← h.2, haf], ?_⟩
          simp only [List.mem_cons, not_or]
          exact ⟨fun hca => hac hca.symm, haf ▸ hc⟩

theorem rsplitOnce_some (c : Char) (s bef aft : Str)
    (h : rsplitOnce c s = (some bef, aft)) : s = bef ++ c :: aft ∧ c ∉ aft :=
  (rsplitOnce_spec c s).1 bef aft h

theorem rsplitOnce_none (c : Char) (s aft : Str)
    (h : rsplitOnce c s = (none, aft)) : aft = s ∧ c ∉ s :=
  (rsplitOnce_spec c s).2 aft h

theorem rsplitOnce_not_mem (c : Char) (s : Str) (h : c ∉ s) :
    rsplitOnce c s = (none, s) := by
  induction s with
  | nil => rfl
  | cons a t ih =>
    simp only [List.mem_cons, not_or] at h
    have hne : ¬ a = c := fun hac => h.1 hac.symm
    simp [rsplitOnce, ih h.2, hne]

theorem rsplitOnce_fst_isSome (c : Char) (s : Str) (h : c ∈ s) :
    (rsplitOnce c s).1.isSome := by
  induction s with
  | nil => simp at h
  | cons a t ih =>
    simp only [rsplitOnce]
    rcases ht : rsplitOnce c t with ⟨ob, af⟩
    cases ob with
    | some b => simp
    | none =>
      have hct : c ∉ t := by
        intro hm
        have := ih hm
        rw [ht] at this
        simp at this
      have hac : a = c := by
        rcases List.mem_cons.mp h with h1 | h2
        · exact h1.symm
        · exact absurd h2 hct
      simp [hac]

theorem rsplitOnce_snd_append (c : Char) (q x : Str) (hx : c ∉ x) :
    (rsplitOnce c (q ++ c :: x)).2 = x := by
  induction q with
  | nil =>
    simp only [List.nil_append, rsplitOnce]
    rw [rsplitOnce_not_mem c x hx]
    simp
  | cons a q ih =>
    simp only [List.cons_append, rsplitOnce]
    rcases ht : rsplitOnce c (q ++ c :: x) with ⟨ob, af⟩
    cases ob with
    | some b => simpa [ht] using ih
    | none =>
      exfalso
      have : (rsplitOnce c (q ++ c :: x)).1.isSome :=
        rsplitOnce_fst_isSome c _ (by simp)
      rw [ht] at this
      simp at this

theorem pyRstrip_length_le (c : Char) (s : Str) : (pyRstrip c s).length ≤ s.length := by
  unfold pyRstrip
  calc (s.reverse.dropWhile (fun x => x = c)).reverse.length
      = (s.reverse.dropWhile (fun x => x = c)).length := List.length_reverse _
    _ ≤ s.reverse.length := List.Sublist.length_le (List.dropWhile_sublist _)
    _ = s.length := List.length_reverse _

theorem head?_dropWhile_ne (p : Char → Bool) (s : Str) (x : Char)
    (h : (s.dropWhile p).head? = some x) : p x = false := by
  induction s with
  | nil => simp [List.dropWhile] at h
  | cons a t ih =>
    by_cases ha : p a
    · rw [List.dropWhile_cons_of_pos ha] at h
      exact ih h
    · rw [List.dropWhile_cons_of_neg ha] at h
      simp only [List.head?_cons, Option.some.injEq] at h
      rw [← h]
      exact Bool.of_not_eq_true ha

theorem pyRstrip_no_trailing (c : Char) (s : Str) :
    pyRstrip c s = [] ∨ (pyRstrip c s).getLast? ≠ some c := by
  by_cases h : pyRstrip c s = []
  · exact Or.inl h
  · right
    intro hc
    unfold pyRstrip at hc
    rw [List.getLast?_reverse] at hc
    have := head?_dropWhile_ne (fun x => x = c) s.reverse c hc
    simp at this

theorem pyRstrip_nil_of_nil (c : Char) (s : Str) (h : s = []) : pyRstrip c s = [] := by
  simp [pyRstrip, h]

theorem pySliceNeg_append (pre sfx : Str) (h : sfx ≠ []) :
    pySliceNeg (pre ++ sfx) sfx.length ++ sfx = pre ++ sfx := by
  unfold pySliceNeg
  rw [if_neg (by simpa using h)]
  have hlen : (pre ++ sfx).length - sfx.length = pre.length := by
    simp [List.length_append]
  rw [hlen]
  rw [List.take_left pre sfx]

theorem splitOnChar_ne_nil (c : Char) (s : Str) : splitOnChar c s ≠ [] := by
  cases s with
  | nil => simp [splitOnChar]
  | cons a t =>
    simp only [splitOnChar]
    by_cases h : a = c
    · simp [h]
    · rw [if_neg h]
      rcases hr : splitOnChar c t with _ | ⟨x, r⟩
      · simp [consHead]
      · simp [consHead]

theorem joinSep_splitOnChar (c : Char) (s : Str) : joinSep c (splitOnChar c s) = s := by
  induction s with
  | nil => rfl
  | cons a t ih =>
    simp only [splitOnChar]
    rcases hr : splitOnChar c t with _ | ⟨x, r⟩
    · exact absurd hr (splitOnChar_ne_nil c t)
    · by_cases h : a = c
      · rw [if_pos h]
        rw [hr] at ih
        simp [joinSep, ih, h]
      · rw [if_neg h]
        rw [hr] at ih
        cases r with
        | nil => simp only [consHead, joinSep] at ih ⊢; rw [ih]
        | cons y r2 => simp only [consHead, joinSep] at ih ⊢; simp [← ih]

theorem splitOnChar_not_mem (c : Char) (s : Str) :
    ∀ x ∈ splitOnChar c s, c ∉ x := by
  induction s with
  | nil => simp [splitOnChar]
  | cons a t ih =>
    simp only [splitOnChar]
    by_cases h : a = c
    · rw [if_pos h]
      intro x hx
      rcases List.mem_cons.mp hx with rfl | hx2
      · simp
      · exact ih x hx2
    · rw [if_neg h]
      rcases hr : splitOnChar c t with _ | ⟨y, r⟩
      · exact absurd hr (splitOnChar_ne_nil c t)
      · simp only [consHead]
        intro x hx
        rcases List.mem_cons.mp hx with rfl | hx2
        · intro hm
          rcases List.mem_cons.mp hm with h1 | h2
          · exact h h1.symm
          · exact ih y (hr ▸ List.mem_cons_self y r) h2
        · exact ih x (hr ▸ List.mem_cons_of_mem y hx2)

/-- Total length of the pieces of a split list. -/
def sumLen (l : List Str) : Nat := (l.map List.length).sum

theorem splitOnChar_sumLen (c : Char) (s : Str) :
    sumLen (splitOnChar c s) + (splitOnChar c s).length = s.length + 1 := by
  induction s with
  | nil => simp [splitOnChar, sumLen]
  | cons a t ih =>
    simp only [splitOnChar]
    by_cases h : a = c
    · rw [if_pos h]
      simp only [sumLen, List.map_cons, List.length_nil, List.sum_cons, List.length_cons]
      simp only [sumLen] at ih
      omega
    · rw [if_neg h]
      rcases hr : splitOnChar c t with _ | ⟨y, r⟩
      · exact absurd hr (splitOnChar_ne_nil c t)
      · rw [hr] at ih
        simp only [consHead, sumLen, List.map_cons, List.sum_cons, List.length_cons] at ih ⊢
        omega

/-! ## Structure of normpath output -/

/-- Number of non-empty pieces. -/
def countNE (l : List Str) : Nat := (l.map (fun x => if x = ([] : Str) then 0 else 1)).sum

/-- Number of empty pieces. -/
def countE (l : List Str) : Nat := (l.map (fun x => if x = ([] : Str) then 1 else 0)).sum

theorem countNE_add_countE (l : List Str) : countNE l + countE l = l.length := by
  induction l with
  | nil => simp [countNE, countE]
  | cons a t ih =>
    simp only [countNE, countE, List.map_cons, List.sum_cons, List.length_cons] at ih ⊢
    by_cases h : a = ([] : Str) <;> simp [h] <;> omega

theorem sumLen_dropLast_le (l : List Str) : sumLen l.dropLast ≤ sumLen l := by
  induction l with
  | nil => simp
  | cons a t ih =>
    cases t with
    | nil => simp [sumLen]
    | cons b r =>
      simp only [List.dropLast_cons₂, sumLen, List.map_cons, List.sum_cons] at ih ⊢
      omega

theorem npStep_elems (init : Nat) (acc : List Str) (comp : Str)
    (hcomp : '/' ∉ comp) (hacc : ∀ x ∈ acc, x ≠ [] ∧ x ≠ S "." ∧ '/' ∉ x) :
    ∀ x ∈ npStep init acc comp, x ≠ [] ∧ x ≠ S "." ∧ '/' ∉ x := by
  unfold npStep
  by_cases h1 : comp = [] ∨ comp = S "."
  · rw [if_pos h1]; exact hacc
  · rw [if_neg h1]
    by_cases h2 : comp ≠ S ".." ∨ (init = 0 ∧ acc = []) ∨ acc.getLast? = some (S "..")
    · rw [if_pos h2]
      intro x hx
      rcases List.mem_append.mp hx with hx1 | hx2
      · exact hacc x hx1
      · push_neg at h1
        rcases List.mem_singleton.mp hx2 with rfl
        exact ⟨h1.1, h1.2, hcomp⟩
    · rw [if_neg h2]
      by_cases h3 : acc ≠ []
      · rw [if_pos h3]
        intro x hx
        exact hacc x ((List.dropLast_prefix acc).subset hx)
      · rw [if_neg h3]; exact hacc

theorem npStep_size (init : Nat) (acc : List Str) (comp : Str) :
    sumLen (npStep init acc comp) + (npStep init acc comp).length ≤
      sumLen acc + acc.length + comp.length + (if comp = ([] : Str) then 0 else 1) := by
  unfold npStep
  by_cases h1 : comp = [] ∨ comp = S "."
  · rw [if_pos h1]; omega
  · rw [if_neg h1]
    push_neg at h1
    by_cases h2 : comp ≠ S ".." ∨ (init = 0 ∧ acc = []) ∨ acc.getLast? = some (S "..")
    · rw [if_pos h2]
      simp only [sumLen, List.map_append, List.sum_append, List.map_cons, List.sum_cons,
        List.map_nil, List.sum_nil, List.length_append, List.length_cons, List.length_nil]
      have : ¬ comp = ([] : Str) := h1.1
      rw [if_neg this]
      simp only [sumLen] at *
      omega
    · rw [if_neg h2]
      have hd : sumLen acc.dropLast ≤ sumLen acc := sumLen_dropLast_le acc
      have hdl : acc.dropLast.length ≤ acc.length :=
        List.Sublist.length_le (List.dropLast_sublist acc)
      by_cases h3 : acc ≠ []
      · rw [if_pos h3]; omega
      · rw [if_neg h3]; omega

theorem npFold_inv (init : Nat) (cs : List Str) (acc : List Str)
    (hcs : ∀ x ∈ cs, '/' ∉ x)
    (hacc : ∀ x ∈ acc, x ≠ [] ∧ x ≠ S "." ∧ '/' ∉ x) :
    (∀ x ∈ cs.foldl (npStep init) acc, x ≠ [] ∧ x ≠ S "." ∧ '/' ∉ x) ∧
    sumLen (cs.foldl (npStep init) acc) + (cs.foldl (npStep init) acc).length ≤
      sumLen acc + acc.length + sumLen cs + countNE cs := by
  induction cs generalizing acc with
  | nil => exact ⟨hacc, by simp [sumLen, countNE]⟩
  | cons comp rest ih =>
    have hcomp : '/' ∉ comp := hcs comp (List.mem_cons_self comp rest)
    have hrest : ∀ x ∈ rest, '/' ∉ x := fun x hx => hcs x (List.mem_cons_of_mem comp hx)
    have hacc' := npStep_elems init acc comp hcomp hacc
    obtain ⟨he, hb⟩ := ih (npStep init acc comp) hrest hacc'
    refine ⟨he, ?_⟩
    have hstep := npStep_size init acc comp
    simp only [List.foldl_cons] at *
    simp only [sumLen, countNE, List.map_cons, List.sum_cons] at hb hstep ⊢
    omega

theorem joinSep_length (c : Char) (l : List Str) (h : l ≠ []) :
    (joinSep c l).length + 1 = sumLen l + l.length := by
  induction l with
  | nil => exact absurd rfl h
  | cons x t ih =>
    cases t with
    | nil => simp [joinSep, sumLen]
    | cons y r =>
      have := ih (by simp)
      simp only [joinSep, sumLen, List.map_cons, List.sum_cons, List.length_cons,
        List.length_append] at this ⊢
      omega

theorem initSlashes_le_countE (s : Str)
    (k : Nat)
    (hk : k = (if (S "//").isPrefixOf s ∧ ¬ (S "///").isPrefixOf s then 2
               else if (S "/").isPrefixOf s then 1 else 0)) :
    k ≤ countE (splitOnChar '/' s) ∧ k ≤ s.length := by
  subst hk
  by_cases h2 : (S "//").isPrefixOf s ∧ ¬ (S "///").isPrefixOf s
  · rw [if_pos h2]
    obtain ⟨t, rfl⟩ := List.isPrefixOf_iff_prefix.mp h2.1
    constructor
    · show 2 ≤ countE (splitOnChar '/' ('/' :: '/' :: t))
      simp only [splitOnChar, if_pos rfl]
      simp [countE]
      omega
    · simp [S]
  · rw [if_neg h2]
    by_cases h1 : (S "/").isPrefixOf s
    · rw [if_pos h1]
      obtain ⟨t, rfl⟩ := List.isPrefixOf_iff_prefix.mp h1
      constructor
      · show 1 ≤ countE (splitOnChar '/' ('/' :: t))
        simp only [splitOnChar, if_pos rfl]
        simp [countE]
      · simp [S]
    · rw [if_neg h1]
      simp

/-- Every non-empty path normalizes to something no longer than itself, and
the output is either the marker `.` or one or two leading slashes followed
by clean components (non-empty, not `.`, separator-free). -/
theorem normpath_struct (s : Str) (hs : s ≠ []) :
    (normpath s).length ≤ s.length ∧
    (normpath s = S "." ∨
      ∃ k comps, normpath s = List.replicate k '/' ++ joinSep '/' comps ∧
        1 ≤ k + comps.length ∧
        ∀ x ∈ comps, x ≠ [] ∧ x ≠ S "." ∧ '/' ∉ x) := by
  unfold normpath
  rw [if_neg hs]
  simp only []
  set k := (if (S "//").isPrefixOf s ∧ ¬ (S "///").isPrefixOf s then 2
            else if (S "/").isPrefixOf s then 1 else 0) with hk
  set all := splitOnChar '/' s with hall
  set comps := all.foldl (npStep k) [] with hcomps
  set out := List.replicate k '/' ++ joinSep '/' comps with hout
  obtain ⟨helems, hsize⟩ := npFold_inv k all []
    (fun x hx => splitOnChar_not_mem '/' s x hx) (by simp)
  rw [← hcomps] at helems hsize
  have hsum : sumLen all + all.length = s.length + 1 := by
    rw [hall]; exact splitOnChar_sumLen '/' s
  have hcnt : countNE all + countE all = all.length := countNE_add_countE all
  obtain ⟨hke, hks⟩ := initSlashes_le_countE s k hk
  rw [← hall] at hke
  have hsz : sumLen ([] : List Str) + ([] : List Str).length = 0 := by simp [sumLen]
  by_cases hnil : out = []
  · rw [if_pos hnil]
    have : 1 ≤ s.length := List.length_pos.mpr hs
    exact ⟨by simpa [S] using this, Or.inl rfl⟩
  · rw [if_neg hnil]
    refine ⟨?_, Or.inr ⟨k, comps, rfl, ?_, helems⟩⟩
    · rcases hc : comps with _ | ⟨x, r⟩
      · have hore : out = List.replicate k '/' := by
          rw [hout, hc]; simp [joinSep]
        rw [hore]
        simp only [List.length_replicate]
        exact hks
      · have hcne : comps ≠ [] := by rw [hc]; simp
        have hj := joinSep_length '/' comps hcne
        have hol : out.length = k + (joinSep '/' comps).length := by
          rw [hout]; simp [List.length_append]
        omega
    · rcases hc : comps with _ | ⟨x, r⟩
      · have hore : out = List.replicate k '/' := by
          rw [hout, hc]; simp [joinSep]
        rcases Nat.eq_zero_or_pos k with hk0 | hpos
        · exact absurd (by rw [hore, hk0]; rfl) hnil
        · omega
      · simp only [List.length_cons]
        omega

/-! ## Parent and parents -/

theorem clone_protocol (p : PathValue) (x : Str) : (clone p x).protocol = p.protocol := rfl

theorem clone_chain (p : PathValue) (x : Str) : (clone p x).chain = p.chain := rfl

theorem clone_path (p : PathValue) (x : Str) : (clone p x).path = setPath p.protocol x := rfl

theorem setPath_file (x : Str) : setPath (S "file") x = normpath x := by
  unfold setPath
  rw [if_pos rfl]

theorem setPath_length_of_not_file (proto x : Str) (h : proto ≠ S "file") :
    (setPath proto x).length ≤ x.length := by
  unfold setPath
  rw [if_neg h]
  by_cases hm : proto ∈ stripProtocols
  · rw [if_pos hm]
    exact List.Sublist.length_le (List.dropWhile_sublist _)
  · rw [if_neg hm]

theorem peqB_true_of_eqs (R : Str → Str) (p q : PathValue)
    (hpr : p.protocol = q.protocol) (hpa : p.path = q.path) : peqB R p q = true := by
  unfold peqB
  by_cases h : islocal p ∧ islocal q
  · rw [if_pos h]
    unfold resolve
    rw [if_pos h.1, if_pos h.2, hpa]
    simp
  · rw [if_neg h]
    simp [hpr, hpa]

theorem peqB_refl (R : Str → Str) (p : PathValue) : peqB R p p = true :=
  peqB_true_of_eqs R p p rfl rfl

theorem path_ne_of_peqB_false (R : Str → Str) (p q : PathValue)
    (hpr : p.protocol = q.protocol) (h : peqB R p q = false) : p.path ≠ q.path := by
  intro hpa
  rw [peqB_true_of_eqs R p q hpr hpa] at h
  exact Bool.true_eq_false.mp h

theorem parent_protocol (p : PathValue) : (parent p).protocol = p.protocol := by
  unfold parent
  by_cases hn : pyRstrip '/' p.path = []
  · rw [if_pos hn]
  · rw [if_neg hn]
    rcases hro : rsplitOnce '/' (pyRstrip '/' p.path) with ⟨ob, aft⟩
    cases ob <;> simp only [] <;> split <;> first | rfl | (split <;> rfl)

/-- The four shapes a parent step can take: the path is its own parent, the
path shrinks by at least the final component and a separator, or the local
special cases `.` (empty parent) and `/` (separator root). -/
theorem parent_path_cases (p : PathValue) :
    parent p = p ∨
    ((parent p).path.length + 2 ≤ p.path.length) ∨
    (islocal p ∧ (parent p).path = S "." ∧ 1 ≤ p.path.length) ∨
    (islocal p ∧ (parent p).path = S "/" ∧ 2 ≤ p.path.length) := by
  by_cases hn : pyRstrip '/' p.path = []
  · left
    unfold parent
    rw [if_pos hn]
  · have hpne : p.path ≠ [] := by
      intro hpp
      exact hn (pyRstrip_nil_of_nil '/' p.path hpp)
    have hp1 : 1 ≤ p.path.length := List.length_pos.mpr hpne
    have hnle : (pyRstrip '/' p.path).length ≤ p.path.length := pyRstrip_length_le '/' p.path
    rcases hro : rsplitOnce '/' (pyRstrip '/' p.path) with ⟨ob, aft⟩
    cases ob with
    | none =>
      by_cases hl : islocal p
      · have hp : parent p = clone p [] := by
          unfold parent
          rw [if_neg hn, hro]
          simp [hl]
        right; right; left
        refine ⟨hl, ?_, hp1⟩
        rw [hp, clone_path, hl, setPath_file]
        rfl
      · left
        unfold parent
        rw [if_neg hn, hro]
        simp [hl]
    | some bef =>
      obtain ⟨hdec, hnotm⟩ := rsplitOnce_some '/' _ bef aft hro
      have haft : aft ≠ [] := by
        intro h0
        rcases pyRstrip_no_trailing '/' p.path with h1 | h1
        · exact hn h1
        · apply h1
          rw [hdec, h0]
          exact List.getLast?_concat _
      have haft1 : 1 ≤ aft.length := List.length_pos.mpr haft
      have hns : (pyRstrip '/' p.path).length = bef.length + 1 + aft.length := by
        rw [hdec]
        simp only [List.length_append, List.length_cons]
        omega
      have hbef2 : bef.length + 2 ≤ p.path.length := by omega
      by_cases hl : islocal p
      · by_cases hb : bef = []
        · have hp : parent p = clone p (S "/") := by
            unfold parent
            rw [if_neg hn, hro]
            simp [hl, hb]
          right; right; right
          refine ⟨hl, ?_, by omega⟩
          rw [hp, clone_path, hl, setPath_file]
          rfl
        · have hp : parent p = clone p bef := by
            unfold parent
            rw [if_neg hn, hro]
            simp [hl, hb]
          right; left
          rw [hp, clone_path, hl, setPath_file]
          have := (normpath_struct bef hb).1
          omega
      · have hp : parent p = clone p bef := by
          unfold parent
          rw [if_neg hn, hro]
          simp [hl]
        right; left
        rw [hp, clone_path]
        have hnf : p.protocol ≠ S "file" := hl
        have := setPath_length_of_not_file p.protocol bef hnf
        omega

theorem parent_nonexpanding (p : PathValue) : (parent p).path.length ≤ p.path.length := by
  rcases parent_path_cases p with h | h | ⟨-, h, h1⟩ | ⟨-, h, h2⟩
  · rw [h]
  · omega
  · rw [h]; exact h1
  · rw [h]
    have hone : (S "/").length = 1 := rfl
    omega

theorem parentMeasure_pos (p : PathValue) : 1 ≤ parentMeasure p := by
  unfold parentMeasure
  split
  · rename_i h
    rw [h]
    decide
  · omega

theorem parentMeasure_lt_of_ne (R : Str → Str) (p : PathValue)
    (h : peqB R p (parent p) = false) :
    parentMeasure (parent p) < parentMeasure p := by
  have hne : p.path ≠ (parent p).path :=
    path_ne_of_peqB_false R p (parent p) (parent_protocol p).symm h
  have hub : parentMeasure (parent p) ≤ 2 * (parent p).path.length + 1 := by
    unfold parentMeasure; split <;> omega
  have hlb : 2 * p.path.length ≤ parentMeasure p := by
    unfold parentMeasure; split <;> omega
  rcases parent_path_cases p with hc | hc | ⟨-, hc, h1⟩ | ⟨-, hc, h2⟩
  · rw [hc, peqB_refl] at h
    exact absurd h (by simp)
  · omega
  · have hm1 : parentMeasure (parent p) = 2 := by
      unfold parentMeasure
      rw [hc]
      decide
    have hpd : p.path ≠ S "." := by
      intro hh
      exact hne (by rw [hh, hc])
    have hm2 : parentMeasure p = 2 * p.path.length + 1 := by
      unfold parentMeasure
      rw [if_neg hpd]
    omega
  · have hm1 : parentMeasure (parent p) = 3 := by
      unfold parentMeasure
      rw [hc]
      decide
    omega

theorem parentsF_congr (R : Str → Str) :
    ∀ (n : Nat), ∀ (m : Nat) (p : PathValue),
      parentMeasure p ≤ n → parentMeasure p ≤ m →
      parentsF R n p = parentsF R m p := by
  intro n
  induction n with
  | zero =>
    intro m p hn _
    exact absurd (Nat.le_trans (parentMeasure_pos p) hn) (by omega)
  | succ n ih =>
    intro m p hn hm
    cases m with
    | zero => exact absurd (Nat.le_trans (parentMeasure_pos p) hm) (by omega)
    | succ m =>
      show (if peqB R p (parent p) then [] else parent p :: parentsF R n (parent p)) =
        (if peqB R p (parent p) then [] else parent p :: parentsF R m (parent p))
      by_cases h : peqB R p (parent p)
      · rw [if_pos h, if_pos h]
      · rw [if_neg h, if_neg h]
        have hlt := parentMeasure_lt_of_ne R p (Bool.not_eq_true _ ▸ Bool.of_not_eq_true h)
        exact congrArg _ (ih m (parent p) (by omega) (by omega))

/-- The recursion of the source
(`[] if self == self.parent else [self.parent] + self.parent.parents`)
holds of `parents`; the fuel is always sufficient because the measure
strictly decreases along non-stabilized steps. -/
theorem parents_unfold (R : Str → Str) (p : PathValue) :
    parents R p =
      if peqB R p (parent p) then [] else parent p :: parents R (parent p) := by
  unfold parents
  obtain ⟨n, hn⟩ : ∃ n, parentMeasure p = n + 1 :=
    ⟨parentMeasure p - 1, by have := parentMeasure_pos p; omega⟩
  rw [hn]
  show (if peqB R p (parent p) then [] else parent p :: parentsF R n (parent p)) = _
  by_cases h : peqB R p (parent p)
  · rw [if_pos h, if_pos h]
  · rw [if_neg h, if_neg h]
    have hlt := parentMeasure_lt_of_ne R p (Bool.not_eq_true _ ▸ Bool.of_not_eq_true h)
    exact congrArg _ (parentsF_congr R n (parentMeasure (parent p)) (parent p)
      (by omega) (by omega))

theorem iterParent_succ_shift (n : Nat) (p : PathValue) :
    iterParent (n + 1) p = parent (iterParent n p) := by
  induction n generalizing p with
  | zero => rfl
  | succ n ih =>
    show iterParent (n + 1) (parent p) = parent (iterParent (n + 1) p)
    rw [ih (parent p)]
    rfl

theorem parents_char_aux (R : Str → Str) :
    ∀ (n : Nat) (p : PathValue), parentMeasure p ≤ n →
      ∃ k, parents R p = (List.range k).map (fun i => iterParent (i + 1) p) ∧
        ((List.range k).all fun i => !peqB R (iterParent i p) (iterParent (i + 1) p)) = true ∧
        peqB R (iterParent k p) (iterParent (k + 1) p) = true ∧
        ((parents R p = [] ∧ k = 0) ∨ (parents R p).getLast? = some (iterParent k p)) := by
  intro n
  induction n with
  | zero =>
    intro p hp
    exact absurd (Nat.le_trans (parentMeasure_pos p) hp) (by omega)
  | succ n ih =>
    intro p hp
    by_cases h : peqB R p (parent p)
    · have hpu : parents R p = [] := by rw [parents_unfold, if_pos h]
      refine ⟨0, by simp [hpu], by simp, h, Or.inl ⟨hpu, rfl⟩⟩
    · have hb : peqB R p (parent p) = false := by simpa using h
      have hpu : parents R p = parent p :: parents R (parent p) := by
        rw [parents_unfold, if_neg h]
      have hlt := parentMeasure_lt_of_ne R p hb
      obtain ⟨k, h1, h2, h3, h4⟩ := ih (parent p) (by omega)
      refine ⟨k + 1, ?_, ?_, h3, ?_⟩
      · rw [hpu, h1, List.range_succ_eq_map, List.map_cons, List.map_map]
        congr 1
      · rw [List.range_succ_eq_map, List.all_cons, List.all_map]
        have e1 : (!peqB R (iterParent 0 p) (iterParent 1 p)) = true := by
          show (!peqB R p (parent p)) = true
          rw [hb]
          rfl
        rw [e1]
        rw [Bool.true_and]
        exact h2
      · rcases h4 with ⟨hnil2, hk0⟩ | hlast
        · right
          rw [hpu, hnil2, hk0]
          rfl
        · right
          rcases hl : parents R (parent p) with _ | ⟨b, m⟩
          · rw [hl] at hlast
            simp at hlast
          · rw [hpu, hl, List.getLast?_cons_cons]
            rw [hl] at hlast
            exact hlast

/-! ## Claim theorems: cross-protocol dispatch -/

theorem islocal_localTemp (tmp : Str) : islocal (localTemp tmp) := rfl

theorem put_ok_of (self target : PathValue) (h1 : ¬ islocal self) (h2 : islocal target) :
    put self target = .ok (.put self.protocol target.path self.path) := by
  unfold put
  rw [if_neg h1, if_neg (not_not_intro h2)]

theorem get_ok_of (self target : PathValue) (h1 : ¬ islocal self) (h2 : islocal target) :
    get self target = .ok (.get self.protocol self.path target.path) := by
  unfold get
  rw [if_neg h1, if_neg (not_not_intro h2)]

/-- Claim C1: the copy dispatch of `Path.copy` realizes exactly the
claimed decision table — equal protocols issue a single native same-backend
copy; a local source and remote destination delegate to the destination's
upload (`dst.put(self)`); a remote source and local destination delegate to
the source's download (`self.get(dst)`); two different remote protocols
download into a temporary local directory and upload it from there. -/
theorem copy_dispatch_table (self dst : PathValue) (tmp : Str)
    (ora : FsOp → Except BackendErr Unit) :
    copyRun self dst tmp ora = copySpec self dst tmp ora := by
  by_cases hpe : self.protocol = dst.protocol
  · unfold copyRun copySpec
    rw [if_pos hpe, if_pos hpe]
  · by_cases hl : islocal self
    · have hl' : self.protocol = S "file" := hl
      have hd : ¬ islocal dst := by
        intro h
        have h' : dst.protocol = S "file" := h
        exact hpe (hl'.trans h'.symm)
      unfold copyRun copySpec
      rw [if_neg hpe, if_neg hpe, if_pos ⟨hl, hd⟩, if_pos hl]
      have hputs : put dst self = .ok (.put dst.protocol self.path dst.path) :=
        put_ok_of dst self hd hl
      rw [hputs]
    · by_cases hd : islocal dst
      · unfold copyRun copySpec
        have hc1 : ¬ (islocal self ∧ ¬ islocal dst) := by tauto
        rw [if_neg hpe, if_neg hpe, if_neg hc1, if_pos ⟨hl, hd⟩, if_neg hl, if_pos hd]
        have hgets : get self dst = .ok (.get self.protocol self.path dst.path) :=
          get_ok_of self dst hl hd
        rw [hgets]
      · unfold copyRun copySpec
        have hc1 : ¬ (islocal self ∧ ¬ islocal dst) := by tauto
        have hc2 : ¬ (¬ islocal self ∧ islocal dst) := by tauto
        rw [if_neg hpe, if_neg hpe, if_neg hc1, if_neg hc2, if_neg hl, if_neg hd]
        rw [get_ok_of self (localTemp tmp) hl (islocal_localTemp tmp)]
        rw [put_ok_of dst (localTemp tmp) hd (islocal_localTemp tmp)]

/-- Reduction of `copyRun` in the remote-to-remote staging branch. -/
theorem copyRun_staging (self dst : PathValue) (tmp : Str)
    (ora : FsOp → Except BackendErr Unit)
    (hs : ¬ islocal self) (hd : ¬ islocal dst) (hpe : self.protocol ≠ dst.protocol) :
    copyRun self dst tmp ora =
      match ora (FsOp.get self.protocol self.path (localTemp tmp).path) with
      | .error e =>
        ([.acquireTemp, .get self.protocol self.path (localTemp tmp).path, .releaseTemp],
          .error (.backend e))
      | .ok _ =>
        ([.acquireTemp, .get self.protocol self.path (localTemp tmp).path,
          .put dst.protocol (localTemp tmp).path dst.path, .releaseTemp],
          (ora (.put dst.protocol (localTemp tmp).path dst.path)).mapError .backend) := by
  unfold copyRun
  have hc1 : ¬ (islocal self ∧ ¬ islocal dst) := by tauto
  have hc2 : ¬ (¬ islocal self ∧ islocal dst) := by tauto
  rw [if_neg hpe, if_neg hc1, if_neg hc2]
  rw [get_ok_of self (localTemp tmp) hs (islocal_localTemp tmp)]
  rw [put_ok_of dst (localTemp tmp) hd (islocal_localTemp tmp)]

/-- Reduction of `moveRun` in the remote-to-remote staging branch. -/
theorem moveRun_staging (self dst : PathValue) (tmp : Str)
    (ora : FsOp → Except BackendErr Unit)
    (hs : ¬ islocal self) (hd : ¬ islocal dst) (hpe : self.protocol ≠ dst.protocol) :
    moveRun self dst tmp ora =
      match ora (FsOp.get self.protocol self.path (localTemp tmp).path) with
      | .error e =>
        ([.acquireTemp, .get self.protocol self.path (localTemp tmp).path, .releaseTemp],
          .error (.backend e))
      | .ok _ =>
        match ora (FsOp.put dst.protocol (localTemp tmp).path dst.path) with
        | .error e =>
          ([.acquireTemp, .get self.protocol self.path (localTemp tmp).path,
            .put dst.protocol (localTemp tmp).path dst.path, .releaseTemp],
            .error (.backend e))
        | .ok _ =>
          ([.acquireTemp, .get self.protocol self.path (localTemp tmp).path,
            .put dst.protocol (localTemp tmp).path dst.path, .releaseTemp,
            .rm self.protocol self.path],
            (ora (.rm self.protocol self.path)).mapError .backend) := by
  unfold moveRun
  have hc1 : ¬ (islocal self ∧ ¬ islocal dst) := by tauto
  have hc2 : ¬ (¬ islocal self ∧ islocal dst) := by tauto
  rw [if_neg hpe, if_neg hc1, if_neg hc2]
  rw [get_ok_of self (localTemp tmp) hs (islocal_localTemp tmp)]
  rw [put_ok_of dst (localTemp tmp) hd (islocal_localTemp tmp)]

/-- Claim C2: in every remote-to-remote copy or move between different
protocols, the temporary staging directory is acquired first and released
(recursively deleted) on every exit path — after a download failure, after
an upload failure, and on success — and the failing leg's error is
propagated unchanged, never suppressed by the cleanup. -/
theorem staging_cleanup (self dst : PathValue) (tmp : Str)
    (ora : FsOp → Except BackendErr Unit)
    (hs : ¬ islocal self) (hd : ¬ islocal dst) (hpe : self.protocol ≠ dst.protocol) :
    (∀ e, ora (FsOp.get self.protocol self.path (localTemp tmp).path) = .error e →
      copyRun self dst tmp ora =
        ([.acquireTemp, .get self.protocol self.path (localTemp tmp).path, .releaseTemp],
          .error (.backend e)) ∧
      moveRun self dst tmp ora =
        ([.acquireTemp, .get self.protocol self.path (localTemp tmp).path, .releaseTemp],
          .error (.backend e))) ∧
    (∀ e, ora (FsOp.get self.protocol self.path (localTemp tmp).path) = .ok () →
      ora (FsOp.put dst.protocol (localTemp tmp).path dst.path) = .error e →
      copyRun self dst tmp ora =
        ([.acquireTemp, .get self.protocol self.path (localTemp tmp).path,
          .put dst.protocol (localTemp tmp).path dst.path, .releaseTemp],
          .error (.backend e)) ∧
      moveRun self dst tmp ora =
        ([.acquireTemp, .get self.protocol self.path (localTemp tmp).path,
          .put dst.protocol (localTemp tmp).path dst.path, .releaseTemp],
          .error (.backend e))) ∧
    (ora (FsOp.get self.protocol self.path (localTemp tmp).path) = .ok () →
      ora (FsOp.put dst.protocol (localTemp tmp).path dst.path) = .ok () →
      copyRun self dst tmp ora =
        ([.acquireTemp, .get self.protocol self.path (localTemp tmp).path,
          .put dst.protocol (localTemp tmp).path dst.path, .releaseTemp], .ok ()) ∧
      moveRun self dst tmp ora =
        ([.acquireTemp, .get self.protocol self.path (localTemp tmp).path,
          .put dst.protocol (localTemp tmp).path dst.path, .releaseTemp,
          .rm self.protocol self.path],
          (ora (.rm self.protocol self.path)).mapError .backend)) ∧
    (copyRun self dst tmp ora).1.getLast? = some FsOp.releaseTemp ∧
    FsOp.releaseTemp ∈ (moveRun self dst tmp ora).1 := by
  have hcr := copyRun_staging self dst tmp ora hs hd hpe
  have hmr := moveRun_staging self dst tmp ora hs hd hpe
  refine ⟨?_, ?_, ?_, ?_, ?_⟩
  · intro e he
    rw [hcr, hmr, he]
    exact ⟨rfl, rfl⟩
  · intro e hg hp
    rw [hcr, hmr, hg, hp]
    exact ⟨rfl, rfl⟩
  · intro hg hp
    rw [hcr, hmr, hg, hp]
    exact ⟨rfl, rfl⟩
  · rw [hcr]
    rcases ora (FsOp.get self.protocol self.path (localTemp tmp).path) with e | u
    · rfl
    · rfl
  · rw [hmr]
    rcases hg : ora (FsOp.get self.protocol self.path (localTemp tmp).path) with e | u
    · simp
    · rcases hp : ora (FsOp.put dst.protocol (localTemp tmp).path dst.path) with e | u
      · simp
      · simp

/-- Claim C2 witness: a concrete s3 → gs transfer whose upload leg fails
still releases the staging directory and surfaces the upload error. -/
theorem staging_cleanup_witness :
    (¬ islocal (PathValue.mk (S "s3") [] (S "b/x")) ∧
     ¬ islocal (PathValue.mk (S "gs") [] (S "c/y")) ∧
     (PathValue.mk (S "s3") [] (S "b/x")).protocol ≠
       (PathValue.mk (S "gs") [] (S "c/y")).protocol) ∧
    (copyRun (PathValue.mk (S "s3") [] (S "b/x")) (PathValue.mk (S "gs") [] (S "c/y"))
        (S "tmpd")
        (fun op => match op with
          | .put _ _ _ => .error (S "boom")
          | _ => .ok ())).1.getLast? = some FsOp.releaseTemp := by
  refine ⟨by decide, ?_⟩
  exact (staging_cleanup _ _ _ _ (by decide) (by decide) (by decide)).2.2.2.1

/-- Claim C3 counterexample: with a local source path and a remote supplied
target, `put` raises the MustBeRemote failure, even though the supplied
source is not local — so "raises MustBeLocalTarget iff the supplied source
is not the local protocol" is false in the right-to-left direction. -/
theorem put_error_class_cex :
    put (PathValue.mk (S "file") [] (S "a.txt")) (PathValue.mk (S "s3") [] (S "b")) =
      .error .mustBeRemote ∧
    ¬ islocal (PathValue.mk (S "s3") [] (S "b")) ∧
    put (PathValue.mk (S "file") [] (S "a.txt")) (PathValue.mk (S "s3") [] (S "b")) ≠
      .error .mustBeLocalTarget := by
  decide

/-- Claim C3 (amended): `put` raises MustBeRemote iff `self` is local, and
raises MustBeLocalTarget iff `self` is remote and the supplied source is
not local (the MustBeRemote check fires first); `get` behaves identically
on its target; with a remote `self` and local other side both delegate to
the backend primitive without raising. -/
theorem put_get_validation (s t : PathValue) :
    (put s t = .error .mustBeRemote ↔ islocal s) ∧
    (put s t = .error .mustBeLocalTarget ↔ (¬ islocal s ∧ ¬ islocal t)) ∧
    (¬ islocal s → islocal t → put s t = .ok (.put s.protocol t.path s.path)) ∧
    (get s t = .error .mustBeRemote ↔ islocal s) ∧
    (get s t = .error .mustBeLocalTarget ↔ (¬ islocal s ∧ ¬ islocal t)) ∧
    (¬ islocal s → islocal t → get s t = .ok (.get s.protocol s.path t.path)) := by
  by_cases hs : islocal s <;> by_cases ht : islocal t <;>
    simp [put, get, hs, ht]

/-- Claim C3 witness: concrete instances of the amended validation rules. -/
theorem put_get_validation_witness :
    (put (PathValue.mk (S "s3") [] (S "k")) (PathValue.mk (S "file") [] (S "l")) =
      .ok (.put (S "s3") (S "l") (S "k"))) ∧
    (put (PathValue.mk (S "file") [] (S "l")) (PathValue.mk (S "file") [] (S "l")) =
      .error .mustBeRemote) ∧
    (put (PathValue.mk (S "s3") [] (S "k")) (PathValue.mk (S "gs") [] (S "m")) =
      .error .mustBeLocalTarget) := by
  refine ⟨?_, ?_, ?_⟩
  · exact (put_get_validation (PathValue.mk (S "s3") [] (S "k"))
      (PathValue.mk (S "file") [] (S "l"))).2.2.1 (by decide) (by decide)
  · exact (put_get_validation (PathValue.mk (S "file") [] (S "l"))
      (PathValue.mk (S "file") [] (S "l"))).1.mpr (by decide)
  · exact (put_get_validation (PathValue.mk (S "s3") [] (S "k"))
      (PathValue.mk (S "gs") [] (S "m"))).2.1.mpr (by decide)

/-! ## Claim theorems: path setter, equality, parts -/

theorem pyLstrip_no_leading (c : Char) (p : Str) : (pyLstrip c p).head? ≠ some c := by
  intro h
  have := head?_dropWhile_ne (fun x => x = c) p c h
  simp at this

theorem pyLstrip_replicate (c : Char) (p : Str) :
    ∃ k, p = List.replicate k c ++ pyLstrip c p := by
  refine ⟨(p.takeWhile (fun x => x = c)).length, ?_⟩
  have ht : p.takeWhile (fun x => x = c) =
      List.replicate (p.takeWhile (fun x => x = c)).length c := by
    rw [List.eq_replicate_iff]
    exact ⟨rfl, fun b hb => by simpa using List.mem_takeWhile_imp hb⟩
  conv_lhs => rw [← List.takeWhile_append_dropWhile (p := fun x => x = c) (l := p)]
  rw [← ht]
  rfl

theorem pyLstrip_eq_self_of_head (c : Char) (s : Str) (h : s.head? ≠ some c) :
    pyLstrip c s = s := by
  cases s with
  | nil => rfl
  | cons a t =>
    have hac : ¬ (a = c) := by
      intro hh
      exact h (by rw [hh]; rfl)
    unfold pyLstrip
    rw [List.dropWhile_cons_of_neg (by simpa using hac)]

/-- The specification's words for claim C4: strip exactly one leading
separator and leave a path with no leading separator unchanged. -/
def stripOneLeadingSep (p : Str) : Str :=
  if p.head? = some '/' then p.tail else p

/-- Claim C4 counterexample: the path setter is Python `lstrip`, which
removes every leading separator; on `//a` it stores `a`, not the `/a` that
stripping exactly one separator would give. -/
theorem s3_setter_strip_cex :
    setPath (S "s3") (S "//a") = S "a" ∧
    stripOneLeadingSep (S "//a") = S "/a" ∧
    setPath (S "s3") (S "//a") ≠ stripOneLeadingSep (S "//a") := by
  decide

/-- Claim C4 (amended): at construction and on every path assignment, for
the protocols s3, s3a, gs and gcs, all leading separators are stripped (so
a path with no leading separator is left unchanged), and the spec's two
construction examples hold. -/
theorem s3_setter_strips_all (proto p : Str) (h : proto ∈ stripProtocols) :
    (∃ k, p = List.replicate k '/' ++ setPath proto p) ∧
    (setPath proto p).head? ≠ some '/' ∧
    (mkPath (S "s3://a.txt")).path = S "a.txt" ∧
    (mkPath (S "s3:///etc/a.txt")).path = S "etc/a.txt" := by
  have hset : setPath proto p = pyLstrip '/' p := by
    unfold setPath
    have hnf : proto ≠ S "file" := by
      intro hf
      rw [hf] at h
      exact absurd h (by decide)
    rw [if_neg hnf, if_pos h]
  rw [hset]
  exact ⟨pyLstrip_replicate '/' p, pyLstrip_no_leading '/' p, by decide, by decide⟩

/-- Claim C4 witness: the amended rule evaluated at protocol s3 and the
path `//a`. -/
theorem s3_setter_strips_all_witness :
    (S "s3") ∈ stripProtocols ∧
    (∃ k, S "//a" = List.replicate k '/' ++ setPath (S "s3") (S "//a")) ∧
    (setPath (S "s3") (S "//a")).head? ≠ some '/' := by
  refine ⟨by decide, ?_, ?_⟩
  · exact (s3_setter_strips_all (S "s3") (S "//a") (by decide)).1
  · exact (s3_setter_strips_all (S "s3") (S "//a") (by decide)).2.1

theorem pathEq_pth (R : Str → Str) (a b : PathValue) :
    pathEq R a (.pth b) = .ok (peqB R a b) := rfl

theorem peqB_chain_irrelevant (R : Str → Str) (a b : PathValue) (c d : Str) :
    peqB R { a with chain := c } { b with chain := d } = peqB R a b := by
  unfold peqB
  by_cases h : islocal a ∧ islocal b
  · have h' : islocal { a with chain := c } ∧ islocal { b with chain := d } := h
    rw [if_pos h', if_pos h]
    unfold resolve
    rw [if_pos h'.1, if_pos h.1, if_pos h'.2, if_pos h.2]
  · have h' : ¬ (islocal { a with chain := c } ∧ islocal { b with chain := d }) := h
    rw [if_neg h', if_neg h]

/-- Claim C5: equality resolves both sides and compares resolved raw paths
when both are local, otherwise compares protocol and raw path; the chain
prefix never participates; comparing against a non-Path value raises; and
the spec's chain-prefix example holds for every resolution oracle. -/
theorem eq_semantics (R : Str → Str) (a b : PathValue) (c d : Str) :
    (islocal a → islocal b →
      (pathEq R a (.pth b) = .ok true ↔ (resolve R a).path = (resolve R b).path)) ∧
    (¬ (islocal a ∧ islocal b) →
      (pathEq R a (.pth b) = .ok true ↔ (a.protocol = b.protocol ∧ a.path = b.path))) ∧
    (pathEq R { a with chain := c } (.pth { b with chain := d }) = pathEq R a (.pth b)) ∧
    (pathEq R a .nonPath = .error (S "other must be Path")) ∧
    (pathEq R (mkPath (S "simplecache::file://b.txt")) (.pth (mkPath (S "file://b.txt"))) =
      .ok true) := by
  refine ⟨?_, ?_, ?_, rfl, ?_⟩
  · intro h1 h2
    rw [pathEq_pth]
    unfold peqB
    rw [if_pos ⟨h1, h2⟩]
    simp
  · intro h
    rw [pathEq_pth]
    unfold peqB
    rw [if_neg h]
    simp
  · rw [pathEq_pth, pathEq_pth]
    exact congrArg Except.ok (peqB_chain_irrelevant R a b c d)
  · have h1 : mkPath (S "simplecache::file://b.txt") =
        PathValue.mk (S "file") (S "simplecache") (S "b.txt") := by decide
    have h2 : mkPath (S "file://b.txt") = PathValue.mk (S "file") [] (S "b.txt") := by decide
    rw [h1, h2, pathEq_pth]
    unfold peqB
    rw [if_pos (show islocal (PathValue.mk (S "file") (S "simplecache") (S "b.txt")) ∧
        islocal (PathValue.mk (S "file") [] (S "b.txt")) from ⟨rfl, rfl⟩)]
    simp [resolve, islocal]

/-- Claim C5 witness: the local rule and the non-Path failure evaluated at
the identity resolution oracle. -/
theorem eq_semantics_witness :
    islocal (PathValue.mk (S "file") [] (S "x.txt")) ∧
    pathEq (fun s => s) (PathValue.mk (S "file") [] (S "x.txt"))
      (.pth (PathValue.mk (S "file") [] (S "x.txt"))) = .ok true ∧
    pathEq (fun s => s) (PathValue.mk (S "file") [] (S "x.txt")) .nonPath =
      .error (S "other must be Path") := by
  refine ⟨by decide, ?_, ?_⟩
  · exact ((eq_semantics (fun s => s) (PathValue.mk (S "file") [] (S "x.txt"))
      (PathValue.mk (S "file") [] (S "x.txt")) [] []).1 (by decide) (by decide)).mpr rfl
  · exact (eq_semantics (fun s => s) (PathValue.mk (S "file") [] (S "x.txt"))
      (PathValue.mk (S "file") [] (S "x.txt")) [] []).2.2.2.1

/-- Claim C6 counterexample: `Path("gs://bucket/a//b.txt").parts` keeps the
bucket as the first segment; it is `("bucket", "a", "", "b.txt")`, not the
`("a", "", "b.txt")` the claim states. -/
theorem gs_parts_cex :
    parts (mkPath (S "gs://bucket/a//b.txt")) = [S "bucket", S "a", S "", S "b.txt"] ∧
    parts (mkPath (S "gs://bucket/a//b.txt")) ≠ [S "a", S "", S "b.txt"] := by
  decide

/-- Claim C6 (amended): for flat-namespace remote paths, `parts` splits the
raw path on the separator preserving empty segments (joining the parts with
the separator recovers the raw path exactly), and
`Path("gs://bucket/a//b.txt").parts == ("bucket", "a", "", "b.txt")`. -/
theorem remote_parts_split (p : PathValue) (h : ¬ islocal p) :
    parts p = splitOnChar '/' p.path ∧
    joinSep '/' (parts p) = p.path ∧
    parts (mkPath (S "gs://bucket/a//b.txt")) = [S "bucket", S "a", S "", S "b.txt"] := by
  refine ⟨?_, ?_, by decide⟩
  · unfold parts
    rw [if_neg h]
  · unfold parts
    rw [if_neg h]
    exact joinSep_splitOnChar '/' p.path

/-- Claim C6 witness: the amended split rule evaluated on a concrete gs
path with an empty segment. -/
theorem remote_parts_split_witness :
    ¬ islocal (PathValue.mk (S "gs") [] (S "bucket/a//b.txt")) ∧
    parts (PathValue.mk (S "gs") [] (S "bucket/a//b.txt")) =
      [S "bucket", S "a", S "", S "b.txt"] ∧
    joinSep '/' (parts (PathValue.mk (S "gs") [] (S "bucket/a//b.txt"))) =
      (PathValue.mk (S "gs") [] (S "bucket/a//b.txt")).path := by
  refine ⟨by decide, by decide, ?_⟩
  exact (remote_parts_split (PathValue.mk (S "gs") [] (S "bucket/a//b.txt"))
    (by decide)).2.1

/-- Claim C9: every derivation — joinpath and the `/` operator, parent,
with_name, with_suffix, clone — preserves the protocol; it is never changed
after construction. -/
theorem derived_protocol_invariant (p q : PathValue) (segs : List Str) (n sfx x : Str) :
    (joinpath p segs).protocol = p.protocol ∧
    (truediv p x).protocol = p.protocol ∧
    (parent p).protocol = p.protocol ∧
    (clone p x).protocol = p.protocol ∧
    (with_name p n = .ok q → q.protocol = p.protocol) ∧
    (with_suffix p sfx = .ok q → q.protocol = p.protocol) := by
  refine ⟨rfl, rfl, parent_protocol p, rfl, ?_, ?_⟩
  · intro h
    unfold with_name at h
    by_cases hl : islocal p
    · rw [if_pos hl] at h
      rcases hx : localWithName p.path n with e | s
      · rw [hx] at h
        simp [Except.map] at h
      · rw [hx] at h
        simp only [Except.map] at h
        obtain rfl : clone p s = q := Except.ok.inj h
        rfl
    · rw [if_neg hl] at h
      by_cases hn : name p = []
      · rw [if_pos hn] at h
        exact absurd h (by simp)
      · rw [if_neg hn] at h
        obtain rfl : clone p _ = q := Except.ok.inj h
        rfl
  · intro h
    unfold with_suffix at h
    by_cases hl : islocal p
    · rw [if_pos hl] at h
      rcases hx : localWithSuffix p.path sfx with e | s
      · rw [hx] at h
        simp [Except.map] at h
      · rw [hx] at h
        simp only [Except.map] at h
        obtain rfl : clone p s = q := Except.ok.inj h
        rfl
    · rw [if_neg hl] at h
      obtain rfl : clone p _ = q := Except.ok.inj h
      rfl

/-- Claim C9 witness: protocol preservation on a concrete s3 path. -/
theorem derived_protocol_invariant_witness :
    (joinpath (PathValue.mk (S "s3") [] (S "b")) [S "c.txt"]).protocol = S "s3" ∧
    (with_name (PathValue.mk (S "s3") [] (S "b/c.txt")) (S "d.txt") =
      .ok (PathValue.mk (S "s3") [] (S "b/d.txt"))) ∧
    (PathValue.mk (S "s3") [] (S "b/d.txt")).protocol = S "s3" := by
  refine ⟨?_, by decide, ?_⟩
  · exact (derived_protocol_invariant (PathValue.mk (S "s3") [] (S "b"))
      (PathValue.mk (S "s3") [] (S "b")) [S "c.txt"] [] [] []).1
  · exact (derived_protocol_invariant (PathValue.mk (S "s3") [] (S "b/c.txt"))
      (PathValue.mk (S "s3") [] (S "b/d.txt")) [] (S "d.txt") [] []).2.2.2.2.1
      (by decide)

/-- Claim C10 counterexample: for an s3-class destination protocol the
replacement string is still stored through the path setter, so
`with_suffix("/x")` on a suffix-less s3 path stores `x`, not exactly `/x`. -/
theorem empty_suffix_with_suffix_cex :
    ¬ islocal (PathValue.mk (S "s3") [] (S "abc")) ∧
    suffix (PathValue.mk (S "s3") [] (S "abc")) = [] ∧
    with_suffix (PathValue.mk (S "s3") [] (S "abc")) (S "/x") =
      .ok (PathValue.mk (S "s3") [] (S "x")) ∧
    (S "x") ≠ (S "/x") := by
  decide

/-- Claim C10 (amended): on a non-local path whose suffix is empty,
`with_suffix(s)` drops the entire original path — the result's raw path is
the setter normalization of `s` alone (exactly `s` when `s` does not begin
with the separator, and always exactly `s` for protocols outside the
s3/s3a/gs/gcs strip list) — and `stem` is the empty string, not the name. -/
theorem empty_suffix_with_suffix (p : PathValue) (s : Str)
    (h : ¬ islocal p) (hsf : suffix p = []) :
    with_suffix p s = .ok (clone p s) ∧
    (clone p s).path = setPath p.protocol s ∧
    (s.head? ≠ some '/' → (clone p s).path = s) ∧
    (p.protocol ∉ stripProtocols → (clone p s).path = s) ∧
    stem p = [] := by
  have hnf : p.protocol ≠ S "file" := h
  refine ⟨?_, rfl, ?_, ?_, ?_⟩
  · unfold with_suffix
    rw [if_neg h, hsf]
    simp [pySliceNeg]
  · intro hh
    rw [clone_path]
    unfold setPath
    rw [if_neg hnf]
    by_cases hm : p.protocol ∈ stripProtocols
    · rw [if_pos hm]
      exact pyLstrip_eq_self_of_head '/' s hh
    · rw [if_neg hm]
  · intro hm
    rw [clone_path]
    unfold setPath
    rw [if_neg hnf, if_neg hm]
  · unfold stem
    rw [if_neg h, hsf]
    simp [pySliceNeg]

/-- Claim C10 witness: the amended rule on a concrete extensionless s3
path. -/
theorem empty_suffix_with_suffix_witness :
    ¬ islocal (PathValue.mk (S "s3") [] (S "abc")) ∧
    suffix (PathValue.mk (S "s3") [] (S "abc")) = [] ∧
    with_suffix (PathValue.mk (S "s3") [] (S "abc")) (S ".txt") =
      .ok (clone (PathValue.mk (S "s3") [] (S "abc")) (S ".txt")) ∧
    stem (PathValue.mk (S "s3") [] (S "abc")) = [] := by
  refine ⟨by decide, by decide, ?_, ?_⟩
  · exact (empty_suffix_with_suffix (PathValue.mk (S "s3") [] (S "abc")) (S ".txt")
      (by decide) (by decide)).1
  · exact (empty_suffix_with_suffix (PathValue.mk (S "s3") [] (S "abc")) (S ".txt")
      (by decide) (by decide)).2.2.2.2

/-! ## Claim theorems: parents -/

/-- Claim C8 counterexample: the parent of `s3://bucket/a` is the bucket
root `s3://bucket`, a path equal to its own parent (the root sentinel), and
it IS the element of `parents` — the root is included in the sequence. -/
theorem parents_root_included_cex :
    parents (fun s => s) (PathValue.mk (S "s3") [] (S "bucket/a")) =
      [PathValue.mk (S "s3") [] (S "bucket")] ∧
    peqB (fun s => s) (PathValue.mk (S "s3") [] (S "bucket"))
      (parent (PathValue.mk (S "s3") [] (S "bucket"))) = true ∧
    PathValue.mk (S "s3") [] (S "bucket") ∈
      parents (fun s => s) (PathValue.mk (S "s3") [] (S "bucket/a")) := by
  decide

/-- Claim C8 (amended): `parents` is the finite ordered sequence of
ancestors from nearest to furthest obtained by repeatedly taking `parent`
until `self == self.parent`; it terminates because a parent step never
lengthens the path and the stabilization point is a fixed point of
`parent` under equality; that stopping point — the root sentinel — is the
final element of the sequence whenever the sequence is non-empty, rather
than being excluded from it. -/
theorem parents_ancestor_chain (R : Str → Str) (p : PathValue) :
    (parent p).path.length ≤ p.path.length ∧
    ∃ k, parents R p = (List.range k).map (fun i => iterParent (i + 1) p) ∧
      ((List.range k).all fun i => !peqB R (iterParent i p) (parent (iterParent i p))) = true ∧
      peqB R (iterParent k p) (parent (iterParent k p)) = true ∧
      ((parents R p = [] ∧ k = 0) ∨ (parents R p).getLast? = some (iterParent k p)) := by
  refine ⟨parent_nonexpanding p, ?_⟩
  obtain ⟨k, h1, h2, h3, h4⟩ := parents_char_aux R (parentMeasure p) p (le_refl _)
  refine ⟨k, h1, ?_, ?_, h4⟩
  · simp only [← iterParent_succ_shift]
    exact h2
  · rw [← iterParent_succ_shift]
    exact h3

/-- Claim C8 witness: the chain characterization on a concrete two-level
gs path. -/
theorem parents_ancestor_chain_witness :
    (parent (PathValue.mk (S "gs") [] (S "b/c/d"))).path.length ≤
      (PathValue.mk (S "gs") [] (S "b/c/d")).path.length ∧
    parents (fun s => s) (PathValue.mk (S "gs") [] (S "b/c/d"))  =
      [PathValue.mk (S "gs") [] (S "b/c"), PathValue.mk (S "gs") [] (S "b")] := by
  exact ⟨(parents_ancestor_chain (fun s => s) (PathValue.mk (S "gs") [] (S "b/c/d"))).1,
    by decide⟩

/-! ## Claim theorems: with_suffix / with_name round trips -/

theorem take_len_append (pre sfx : Str) :
    (pre ++ sfx).take ((pre ++ sfx).length - sfx.length) = pre := by
  have h : (pre ++ sfx).length - sfx.length = pre.length := by simp
  rw [h]
  exact List.take_left pre sfx

theorem rsplitOnce_snd_decomp (c : Char) (s : Str) :
    ∃ pre, s = pre ++ (rsplitOnce c s).2 ∧ c ∉ (rsplitOnce c s).2 := by
  rcases h : rsplitOnce c s with ⟨ob, aft⟩
  cases ob with
  | some bef =>
    obtain ⟨hd, hm⟩ := rsplitOnce_some c s bef aft h
    exact ⟨bef ++ [c], by rw [hd]; simp, hm⟩
  | none =>
    obtain ⟨ha, hm⟩ := rsplitOnce_none c s aft h
    exact ⟨[], by rw [ha]; rfl, by rw [ha]; exact hm⟩

theorem joinSep_cons₂ (c : Char) (a b : Str) (l : List Str) :
    joinSep c (a :: b :: l) = a ++ c :: joinSep c (b :: l) := rfl

theorem joinSep_concat (c : Char) (front : List Str) (x : Str) (h : front ≠ []) :
    joinSep c (front ++ [x]) = joinSep c front ++ c :: x := by
  induction front with
  | nil => exact absurd rfl h
  | cons f fr ih =>
    cases fr with
    | nil => simp [joinSep]
    | cons g r =>
      have hx := ih (by simp)
      rw [List.cons_append] at hx
      rw [List.cons_append, List.cons_append, joinSep_cons₂, hx, joinSep_cons₂]
      simp

/-- On a normpath-canonical path other than `.`, the final path component
is never the literal `.` (normalization removed every such component). -/
theorem canonical_name_ne_dot (s : Str) (hfix : normpath s = s) (hne : s ≠ S ".") :
    (rsplitOnce '/' s).2 ≠ S "." := by
  have hs : s ≠ [] := by
    intro h0
    rw [h0] at hfix
    have hd : normpath ([] : Str) = S "." := rfl
    rw [hd] at hfix
    exact absurd hfix (by decide)
  obtain ⟨-, hstruct⟩ := normpath_struct s hs
  rw [hfix] at hstruct
  rcases hstruct with h0 | ⟨k, comps, heq, hk1, helems⟩
  · exact absurd h0 hne
  · rcases hcomps : comps with _ | ⟨c0, cr⟩
    · rw [hcomps] at heq hk1
      simp only [joinSep, List.append_nil, List.length_nil] at heq hk1
      obtain ⟨m, rfl⟩ : ∃ m, k = m + 1 := ⟨k - 1, by omega⟩
      have : s = List.replicate m '/' ++ '/' :: ([] : Str) := by
        rw [heq, List.replicate_succ']
      rw [this, rsplitOnce_snd_append '/' (List.replicate m '/') [] (by simp)]
      decide
    · have hcne : comps ≠ [] := by rw [hcomps]; simp
      set x := comps.getLast hcne with hx
      have hxm : x ∈ comps := List.getLast_mem hcne
      obtain ⟨-, hxd, hxs⟩ := helems x hxm
      have hdec : comps = comps.dropLast ++ [x] := (List.dropLast_append_getLast hcne).symm
      rcases hfront : comps.dropLast with _ | ⟨f0, fr⟩
      · have hcx : comps = [x] := by rw [hdec, hfront]; rfl
        rw [hcx] at heq
        simp only [joinSep] at heq
        cases k with
        | zero =>
          rw [heq]
          simp only [List.replicate, List.nil_append]
          rw [rsplitOnce_not_mem '/' x hxs]
          exact hxd
        | succ m =>
          have : s = List.replicate m '/' ++ '/' :: x := by
            rw [heq, List.replicate_succ']
            simp
          rw [this, rsplitOnce_snd_append '/' (List.replicate m '/') x hxs]
          exact hxd
      · have hfne : comps.dropLast ≠ [] := by rw [hfront]; simp
        have hj : joinSep '/' comps = joinSep '/' comps.dropLast ++ '/' :: x := by
          conv_lhs => rw [hdec]
          exact joinSep_concat '/' comps.dropLast x hfne
        have : s = (List.replicate k '/' ++ joinSep '/' comps.dropLast) ++ '/' :: x := by
          rw [heq, hj]
          simp
        rw [this, rsplitOnce_snd_append '/' _ x hxs]
        exact hxd

theorem clone_self_of_wf (p : PathValue) (h : wf p) : clone p p.path = p := by
  unfold clone
  rw [← h]

theorem localSuffix_cases (s : Str) (h : localSuffix s ≠ []) :
    ∃ b aft, rsplitOnce '.' (localName s) = (some b, aft) ∧ b ≠ [] ∧ aft ≠ [] ∧
      localSuffix s = '.' :: aft ∧ localName s = b ++ '.' :: aft := by
  rcases hsd : rsplitOnce '.' (localName s) with ⟨ob, aft⟩
  cases ob with
  | none =>
    exfalso
    apply h
    unfold localSuffix
    simp only [hsd]
  | some b =>
    by_cases hba : b ≠ [] ∧ aft ≠ []
    · refine ⟨b, aft, rfl, hba.1, hba.2, ?_, (rsplitOnce_some '.' (localName s) b aft hsd).1⟩
      unfold localSuffix
      simp only [hsd]
      rw [if_pos hba]
    · exfalso
      apply h
      unfold localSuffix
      simp only [hsd]
      rw [if_neg hba]

theorem localName_dot : localName (S ".") = [] := by decide

/-- `with_suffix` round trip on the pathlib delegate: replacing the current
non-empty suffix by itself reproduces the path. -/
theorem localWithSuffix_roundtrip (s : Str) (hsf : localSuffix s ≠ []) :
    localWithSuffix s (localSuffix s) = .ok s := by
  obtain ⟨b, aft, hsd, hb, ha, hls, hnd⟩ := localSuffix_cases s hsf
  have hnn : localName s ≠ [] := by rw [hnd]; simp
  have hpd : s ≠ S "." := by
    intro h0
    exact hnn (by rw [h0]; exact localName_dot)
  have hname_eq : localName s = (rsplitOnce '/' s).2 := by
    unfold localName
    rw [if_neg hpd]
  obtain ⟨pre1, hp1, hsl⟩ := rsplitOnce_snd_decomp '/' s
  rw [← hname_eq] at hp1 hsl
  have hslaft : '/' ∉ ('.' :: aft : Str) := by
    simp only [List.mem_cons, not_or]
    refine ⟨by decide, ?_⟩
    intro hm
    exact hsl (by rw [hnd]; simp [hm])
  unfold localWithSuffix
  rw [hls]
  rw [if_neg hslaft]
  have hc2 : ¬ ((('.' :: aft : Str) ≠ [] ∧ (('.' :: aft : Str)).head? ≠ some '.') ∨
      ('.' :: aft : Str) = S ".") := by
    intro hcon
    rcases hcon with ⟨-, hB⟩ | hC
    · exact hB rfl
    · injection hC with h1 h2
      exact ha h2
  rw [if_neg hc2, if_neg hnn]
  rw [if_neg (by simp : ¬ (('.' :: aft : Str) = []))]
  have harg : pySliceNeg (localName s) ('.' :: aft : Str).length ++ '.' :: aft =
      localName s := by
    have h2 := pySliceNeg_append b ('.' :: aft) (by simp)
    rw [← hnd] at h2
    exact h2
  rw [harg]
  set n := localName s with hndef
  rw [hp1, take_len_append]

/-- `with_name` round trip on the pathlib delegate: replacing a non-empty
name by itself reproduces the path (canonical inputs). -/
theorem localWithName_roundtrip (s : Str) (hfix : normpath s = s) (hn : localName s ≠ []) :
    localWithName s (localName s) = .ok s := by
  have hpd : s ≠ S "." := by
    intro h0
    exact hn (by rw [h0]; exact localName_dot)
  have hname_eq : localName s = (rsplitOnce '/' s).2 := by
    unfold localName
    rw [if_neg hpd]
  obtain ⟨pre1, hp1, hsl⟩ := rsplitOnce_snd_decomp '/' s
  have hdot := canonical_name_ne_dot s hfix hpd
  rw [← hname_eq] at hp1 hsl hdot
  unfold localWithName
  rw [if_neg hn]
  have hval : ¬ (localName s = [] ∨ '/' ∈ localName s ∨ localName s = S ".") := by
    push_neg
    exact ⟨hn, hsl, hdot⟩
  rw [if_neg hval]
  set n := localName s with hndef
  rw [hp1, take_len_append]

theorem remote_suffix_cases (p : PathValue) (hl : ¬ islocal p) (hsf : suffix p ≠ []) :
    ∃ b aft, rsplitOnce '.' (name p) = (some b, aft) ∧ suffix p = '.' :: aft ∧
      name p = b ++ '.' :: aft := by
  rcases hsd : rsplitOnce '.' (name p) with ⟨ob, aft⟩
  cases ob with
  | none =>
    exfalso
    apply hsf
    unfold suffix
    rw [if_neg hl]
    simp only [hsd]
  | some b =>
    refine ⟨b, aft, rfl, ?_, (rsplitOnce_some '.' (name p) b aft hsd).1⟩
    unfold suffix
    rw [if_neg hl]
    simp only [hsd]

/-- Claim C7: on every well-formed PathValue (the stored path is a fixed
point of the setter, which holds of everything the program constructs),
`with_suffix(p.suffix)` equals `p` when the suffix is non-empty,
`with_name(p.name)` equals `p` when the name is non-empty, and `with_name`
raises the EmptyName failure when the path has no name component. -/
theorem with_roundtrips (R : Str → Str) (p : PathValue) (hwf : wf p) :
    (suffix p ≠ [] → ∃ q, with_suffix p (suffix p) = .ok q ∧ peqB R q p = true) ∧
    (name p ≠ [] → ∃ q, with_name p (name p) = .ok q ∧ peqB R q p = true) ∧
    (name p = [] → ∃ e, with_name p (name p) = .error e) := by
  by_cases hl : islocal p
  · have hl' : p.protocol = S "file" := hl
    have hfix : normpath p.path = p.path := by
      have h1 : setPath p.protocol p.path = normpath p.path := by
        rw [hl', setPath_file]
      rw [← h1, ← hwf]
    have hsufeq : suffix p = localSuffix p.path := by
      unfold suffix
      rw [if_pos hl]
    have hnameq : name p = localName p.path := by
      unfold name
      rw [if_pos hl]
    refine ⟨?_, ?_, ?_⟩
    · intro hsf
      rw [hsufeq] at hsf ⊢
      refine ⟨p, ?_, peqB_refl R p⟩
      unfold with_suffix
      rw [if_pos hl, localWithSuffix_roundtrip p.path hsf]
      simp only [Except.map]
      rw [clone_self_of_wf p hwf]
    · intro hnm
      rw [hnameq] at hnm ⊢
      refine ⟨p, ?_, peqB_refl R p⟩
      unfold with_name
      rw [if_pos hl, localWithName_roundtrip p.path hfix hnm]
      simp only [Except.map]
      rw [clone_self_of_wf p hwf]
    · intro hnm
      rw [hnameq] at hnm
      refine ⟨p.path ++ S " has an empty name", ?_⟩
      unfold with_name
      rw [if_pos hl]
      unfold localWithName
      rw [if_pos hnm]
      rfl
  · have hnameq : name p = (rsplitOnce '/' p.path).2 := by
      unfold name
      rw [if_neg hl]
    obtain ⟨pre1, hp1, hsl⟩ := rsplitOnce_snd_decomp '/' p.path
    rw [← hnameq] at hp1 hsl
    refine ⟨?_, ?_, ?_⟩
    · intro hsf
      obtain ⟨b, aft, hsd, hse, hnd⟩ := remote_suffix_cases p hl hsf
      have harg : pySliceNeg p.path (suffix p).length ++ suffix p = p.path := by
        rw [hse]
        have hdecomp : p.path = (pre1 ++ b) ++ '.' :: aft := by
          rw [hp1, hnd]
          simp
        rw [hdecomp]
        exact pySliceNeg_append (pre1 ++ b) ('.' :: aft) (by simp)
      refine ⟨p, ?_, peqB_refl R p⟩
      unfold with_suffix
      rw [if_neg hl, harg, clone_self_of_wf p hwf]
    · intro hnm
      have harg : pySliceNeg p.path (name p).length ++ name p = p.path := by
        set n := name p with hndef
        rw [hp1]
        exact pySliceNeg_append pre1 n hnm
      refine ⟨p, ?_, peqB_refl R p⟩
      unfold with_name
      rw [if_neg hl, if_neg hnm, harg, clone_self_of_wf p hwf]
    · intro hnm
      refine ⟨p.path ++ S " has an empty name", ?_⟩
      unfold with_name
      rw [if_neg hl, if_pos hnm]

/-- Claim C7 witness: both round trips and the EmptyName failure on
concrete paths. -/
theorem with_roundtrips_witness :
    wf (PathValue.mk (S "s3") [] (S "b/a.tar.gz")) ∧
    suffix (PathValue.mk (S "s3") [] (S "b/a.tar.gz")) ≠ [] ∧
    (∃ q, with_suffix (PathValue.mk (S "s3") [] (S "b/a.tar.gz"))
        (suffix (PathValue.mk (S "s3") [] (S "b/a.tar.gz"))) = .ok q ∧
      peqB (fun s => s) q (PathValue.mk (S "s3") [] (S "b/a.tar.gz")) = true) ∧
    wf (PathValue.mk (S "file") [] (S "a/b.txt")) ∧
    (∃ q, with_name (PathValue.mk (S "file") [] (S "a/b.txt"))
        (name (PathValue.mk (S "file") [] (S "a/b.txt"))) = .ok q ∧
      peqB (fun s => s) q (PathValue.mk (S "file") [] (S "a/b.txt")) = true) ∧
    (∃ e, with_name (PathValue.mk (S "gs") [] (S "b/"))
        (name (PathValue.mk (S "gs") [] (S "b/"))) = .error e) := by
  refine ⟨by decide, by decide, ?_, by decide, ?_, ?_⟩
  · exact (with_roundtrips (fun s => s) (PathValue.mk (S "s3") [] (S "b/a.tar.gz"))
      (by decide)).1 (by decide)
  · exact (with_roundtrips (fun s => s) (PathValue.mk (S "file") [] (S "a/b.txt"))
      (by decide)).2.1 (by decide)
  · exact (with_roundtrips (fun s => s) (PathValue.mk (S "gs") [] (S "b/"))
      (by decide)).2.2 (by decide)

end Pathlibfs
